import Mathlib

/-!
Verification of the squash server framework against its specification.

Each section embeds one component of the Go source as Lean definitions
(byte slices become `List Nat`, Go `uint32` arithmetic is `Nat` with
explicit `% 2 ^ 32`, fallible operations return `Except String`), and the
theorems settle the spec's claims about them.
-/

namespace Squash

/-! ## Framing codec (network/msg parser)

`MsgParser` frames messages as a 1/2/4-byte length prefix followed by the
payload.  Byte slices are `List Nat` whose elements are byte values. -/

structure MsgParser where
  lenMsgLen : Nat
  minMsgLen : Nat
  maxMsgLen : Nat
  littleEndian : Bool
deriving DecidableEq

/-- NewMsgParser: width 2, bounds [1, 4096], big-endian. -/
def NewMsgParser : MsgParser :=
  { lenMsgLen := 2, minMsgLen := 1, maxMsgLen := 4096, littleEndian := false }

/-- First statement of SetMsgLen: accept the width only if it is 1, 2
or 4. -/
def setWidth (p : MsgParser) (w : Nat) : MsgParser :=
  if w = 1 ∨ w = 2 ∨ w = 4 then { p with lenMsgLen := w } else p

/-- Second statement of SetMsgLen: a zero minimum keeps the previous
value. -/
def setMin (p : MsgParser) (mn : Nat) : MsgParser :=
  if mn ≠ 0 then { p with minMsgLen := mn } else p

/-- Third statement of SetMsgLen: a zero maximum keeps the previous
value. -/
def setMax (p : MsgParser) (mx : Nat) : MsgParser :=
  if mx ≠ 0 then { p with maxMsgLen := mx } else p

/-- The `switch p.lenMsgLen` of SetMsgLen computing the largest length
representable in the prefix; the Go switch has no default case, so the
`max` variable stays 0 for other widths (unreachable in practice). -/
def maxRepr : Nat → Nat
  | 1 => 255
  | 2 => 65535
  | 4 => 4294967295
  | _ => 0

/-- Clamp of the minimum length against the representable maximum. -/
def clampMin (p : MsgParser) : MsgParser :=
  if maxRepr p.lenMsgLen < p.minMsgLen then { p with minMsgLen := maxRepr p.lenMsgLen } else p

/-- Clamp of the maximum length against the representable maximum. -/
def clampMax (p : MsgParser) : MsgParser :=
  if maxRepr p.lenMsgLen < p.maxMsgLen then { p with maxMsgLen := maxRepr p.lenMsgLen } else p

/-- MsgParser.SetMsgLen: the five statements of the source in order. -/
def MsgParser.SetMsgLen (p : MsgParser) (lenMsgLen mn mx : Nat) : MsgParser :=
  clampMax (clampMin (setMax (setMin (setWidth p lenMsgLen) mn) mx))

/-- Bytes of the length prefix as written by MsgParser.Write: the length is
truncated to the prefix width (`byte(msgLen)`, `uint16(msgLen)`, `msgLen`)
and serialized in the configured endianness. -/
def encodeLen (p : MsgParser) (msgLen : Nat) : List Nat :=
  match p.lenMsgLen with
  | 1 => [msgLen % 256]
  | 2 =>
      if p.littleEndian then [msgLen % 256, msgLen / 256 % 256]
      else [msgLen / 256 % 256, msgLen % 256]
  | 4 =>
      if p.littleEndian then
        [msgLen % 256, msgLen / 256 % 256, msgLen / 2 ^ 16 % 256, msgLen / 2 ^ 24 % 256]
      else
        [msgLen / 2 ^ 24 % 256, msgLen / 2 ^ 16 % 256, msgLen / 256 % 256, msgLen % 256]
  | _ => []

/-- Length decoding in MsgParser.Read: the Go `switch` leaves `msgLen = 0`
for a width outside 1, 2, 4. -/
def decodeLen (p : MsgParser) (b : List Nat) : Nat :=
  match p.lenMsgLen with
  | 1 => b.getD 0 0
  | 2 =>
      if p.littleEndian then b.getD 0 0 + 256 * b.getD 1 0
      else 256 * b.getD 0 0 + b.getD 1 0
  | 4 =>
      if p.littleEndian then
        b.getD 0 0 + 256 * b.getD 1 0 + 2 ^ 16 * b.getD 2 0 + 2 ^ 24 * b.getD 3 0
      else
        2 ^ 24 * b.getD 0 0 + 2 ^ 16 * b.getD 1 0 + 256 * b.getD 2 0 + b.getD 3 0
  | _ => 0

/-- MsgParser.Read over an explicit byte stream: read the prefix (EOF if
the stream is shorter), decode the length, check the bounds, then read
exactly that many payload bytes.  Returns the payload and the unread rest
of the stream. -/
def MsgParser.Read (p : MsgParser) (s : List Nat) : Except String (List Nat × List Nat) :=
  if s.length < p.lenMsgLen then .error "EOF"
  else
    let msgLen := decodeLen p (s.take p.lenMsgLen)
    let rest := s.drop p.lenMsgLen
    if p.maxMsgLen < msgLen then .error "message too long"
    else if msgLen < p.minMsgLen then .error "message too short"
    else if rest.length < msgLen then .error "EOF"
    else .ok (rest.take msgLen, rest.drop msgLen)

/-- Go `copy(dst[l:], src)`: overwrite `dst` from position `l` with as much
of `src` as fits, leaving the length of `dst` unchanged. -/
def copyAt (dst : List Nat) (l : Nat) (src : List Nat) : List Nat :=
  dst.take l ++ src.take (dst.length - l) ++ dst.drop (l + src.length)

/-- The copy loop of MsgParser.Write: each chunk is copied at the running
offset, and the offset advances by the chunk's full length.  `msg[l:]`
panics in Go when `l` exceeds the buffer length; the panic is modelled as
an error value. -/
def copyArgs (dst : List Nat) (l : Nat) : List (List Nat) → Except String (List Nat)
  | [] => .ok dst
  | a :: as =>
      if dst.length < l then .error "panic: slice bounds out of range"
      else copyArgs (copyAt dst l a) (l + a.length) as

/-- MsgParser.Write: the total length is accumulated in `uint32`
arithmetic (each chunk length truncated, the sum wrapped), checked against
the bounds, then a buffer of `uint32(lenMsgLen) + msgLen` bytes is filled
with the encoded prefix and the chunks.  The buffer allocation length also
wraps; writing the prefix into a too-short buffer panics in Go, modelled
as an error value. -/
def MsgParser.Write (p : MsgParser) (args : List (List Nat)) : Except String (List Nat) :=
  let msgLen := args.foldl (fun acc a => (acc + a.length % 2 ^ 32) % 2 ^ 32) 0
  if p.maxMsgLen < msgLen then .error "message too long"
  else if msgLen < p.minMsgLen then .error "message too short"
  else
    let bufLen := (p.lenMsgLen % 2 ^ 32 + msgLen) % 2 ^ 32
    if bufLen < p.lenMsgLen then .error "panic: slice bounds out of range"
    else
      copyArgs (encodeLen p msgLen ++ List.replicate (bufLen - p.lenMsgLen) 0) p.lenMsgLen args

/-! ## Channel RPC (chanrpc)

Registered functions take an argument vector and return nothing, one
value, or a vector of values (chanrpc.go `Register`).  Argument and
return values are opaque, modelled as `Nat`.  A panic inside a user
function is modelled by the function returning `.error` with the panic
value's string form. -/

abbrev Val := Nat

inductive GoFn where
  | noRet : (List Val → Except String Unit) → GoFn
  | oneRet : (List Val → Except String Val) → GoFn
  | vecRet : (List Val → Except String (List Val)) → GoFn

/-- Shape tag of a registered function: 0, 1, 2 as used by Client.f. -/
def fnShape : GoFn → Nat
  | .noRet _ => 0
  | .oneRet _ => 1
  | .vecRet _ => 2

/-- Value slot of a RetInfo: Go stores nil, a single value, or a slice in
the `ret interface\x7b\x7d` field. -/
inductive RetVal where
  | nil : RetVal
  | one : Val → RetVal
  | vec : List Val → RetVal
deriving DecidableEq

/-- Shape of an asynchronous callback (AsynCall's `switch cb.(type)`). -/
inductive CB where
  | err : CB
  | valErr : CB
  | vecErr : CB
deriving DecidableEq

/-- Expected result arity inferred from a callback's shape (the `n`
AsynCall passes to asynCall). -/
def cbArity : CB → Nat
  | .err => 0
  | .valErr => 1
  | .vecErr => 2

structure RetInfo where
  ret : RetVal
  err : Option String
  cb : Option CB

structure CallInfo where
  f : GoFn
  args : List Val
  hasRetChan : Bool
  cb : Option CB

/-- A chanrpc Server: the id-to-function registry and the bounded call
channel, modelled as the queue contents plus its capacity. -/
structure Server where
  functions : List (Nat × GoFn)
  chanCall : List CallInfo
  chanCallCap : Nat

/-- Dispatch by function shape (the `switch ci.f.(type)` of Server.Exec),
with a panic surfaced as `.error`. -/
def runFn : GoFn → List Val → Except String RetVal
  | .noRet f, args => (f args).map fun _ => RetVal.nil
  | .oneRet f, args => (f args).map RetVal.one
  | .vecRet f, args => (f args).map RetVal.vec

/-- Server.Exec.  Returns the RetInfo delivered to the call's return
channel (none when the call has no return channel, as in Server.ret) and
the error value Exec itself returns.  On a panic `r`, the deferred
handler returns `r` formatted with the captured stack (truncated to
`lenStackBuf` bytes) when `lenStackBuf > 0` and plain `r` otherwise,
while the RetInfo sent to the return channel always carries plain
`fmt.Errorf("%v", r)`. -/
def Server.Exec (lenStackBuf : Nat) (stackTrace : String) (ci : CallInfo) :
    Option RetInfo × Option String :=
  match runFn ci.f ci.args with
  | .ok rv => (if ci.hasRetChan then some ⟨rv, none, ci.cb⟩ else none, none)
  | .error r =>
      let execErr := if 0 < lenStackBuf then r ++ ": " ++ stackTrace.take lenStackBuf else r
      (if ci.hasRetChan then some ⟨RetVal.nil, some r, ci.cb⟩ else none, some execErr)

/-- Server.Go: fire-and-forget self invocation.  An unregistered id
returns without doing anything; otherwise a descriptor with no return
channel is sent on the call channel (the blocking send is modelled as the
enqueue; the recover there only guards sending on a closed channel, which
is not modelled). -/
def Server.Go (s : Server) (id : Nat) (args : List Val) : Server :=
  match s.functions.lookup id with
  | Option.none => s
  | some f => { s with chanCall := s.chanCall ++ [⟨f, args, false, Option.none⟩] }

/-- Client.f: look the id up and validate the registered function's shape
against the expected result count `n`.  Go panics on `n` outside 0..2
(internal callers only pass 0, 1, 2); the panic is modelled as an error
value. -/
def Client.f (s : Server) (id : Nat) (n : Nat) : Except String GoFn :=
  match s.functions.lookup id with
  | Option.none => .error ("function id " ++ toString id ++ ": function not registered")
  | some f =>
      if 2 < n then .error "panic: bug"
      else if fnShape f = n then .ok f
      else .error ("function id " ++ toString id ++ ": return type mismatch")

/-- Client.Call0: validate the shape, then perform the blocking round
trip through the call channel and the sync return channel, modelled by
executing the descriptor directly; Call0 returns `ri.err`.  The Bool
records whether the registered function was dispatched. -/
def Client.Call0 (lsb : Nat) (st : String) (s : Server) (id : Nat) (args : List Val) :
    Except String Unit × Bool :=
  match Client.f s id 0 with
  | .error e => (.error e, false)
  | .ok f =>
      match (Server.Exec lsb st ⟨f, args, true, Option.none⟩).1 with
      | some ri =>
          (match ri.err with
           | some e => .error e
           | Option.none => .ok (), true)
      | Option.none => (.ok (), true)

/-- Client.Call1: like Call0 but returning `(ri.ret, ri.err)`; a
validation failure returns `(nil, err)` without dispatching. -/
def Client.Call1 (lsb : Nat) (st : String) (s : Server) (id : Nat) (args : List Val) :
    (RetVal × Option String) × Bool :=
  match Client.f s id 1 with
  | .error e => ((RetVal.nil, some e), false)
  | .ok f =>
      match (Server.Exec lsb st ⟨f, args, true, Option.none⟩).1 with
      | some ri => ((ri.ret, ri.err), true)
      | Option.none => ((RetVal.nil, Option.none), true)

/-- Client.CallN: like Call1 but asserting the returned value to a
vector (`ri.ret.([]interface\x7b\x7d)`); the assertion's result is `some`
exactly when the value is a vector.  A validation failure returns
`(nil, err)` without dispatching. -/
def Client.CallN (lsb : Nat) (st : String) (s : Server) (id : Nat) (args : List Val) :
    (Option (List Val) × Option String) × Bool :=
  match Client.f s id 2 with
  | .error e => ((Option.none, some e), false)
  | .ok f =>
      match (Server.Exec lsb st ⟨f, args, true, Option.none⟩).1 with
      | some ri =>
          ((match ri.ret with
            | RetVal.vec vs => some vs
            | _ => Option.none, ri.err), true)
      | Option.none => ((Option.none, Option.none), true)

/-- A chanrpc Client: the server it is bound to and the pending
asynchronous call counter. -/
structure Client where
  s : Server
  pendingAsynCall : Nat

/-- Client.asynCall: validate, then attempt a non-blocking enqueue of the
descriptor (pointing at the async return channel); a full channel yields
`chanrpc channel full`, a successful enqueue increments the pending
counter. -/
def Client.asynCall (c : Client) (id : Nat) (args : List Val) (cb : CB) (n : Nat) :
    Except String Client :=
  match Client.f c.s id n with
  | .error e => .error e
  | .ok f =>
      if c.s.chanCallCap ≤ c.s.chanCall.length then .error "chanrpc channel full"
      else .ok { s := { c.s with chanCall := c.s.chanCall ++ [⟨f, args, true, some cb⟩] },
                 pendingAsynCall := c.pendingAsynCall + 1 }

/-- An observed synchronous callback invocation: which callback shape ran
and the values it received. -/
inductive CbEvent where
  | err : Option String → CbEvent
  | valErr : RetVal → Option String → CbEvent
  | vecErr : Option (List Val) → Option String → CbEvent
deriving DecidableEq

/-- The immediate callback invocation AsynCall performs when asynCall
fails: the callback receives nil results and the error. -/
def cbErrEvent (cb : CB) (e : String) : CbEvent :=
  match cb with
  | .err => .err (some e)
  | .valErr => .valErr RetVal.nil (some e)
  | .vecErr => .vecErr Option.none (some e)

/-- Client.AsynCall (with the variadic argument list already split into
the call arguments and the trailing callback): infer the arity from the
callback's shape, run asynCall, and on failure invoke the callback
immediately and synchronously with the error.  Returns the updated client
and the callback invocations that happened during the call itself. -/
def Client.AsynCall (c : Client) (id : Nat) (args : List Val) (cb : CB) :
    Client × List CbEvent :=
  match cb with
  | .err =>
      match c.asynCall id args cb 0 with
      | .error e => (c, [.err (some e)])
      | .ok c1 => (c1, [])
  | .valErr =>
      match c.asynCall id args cb 1 with
      | .error e => (c, [.valErr RetVal.nil (some e)])
      | .ok c1 => (c1, [])
  | .vecErr =>
      match c.asynCall id args cb 2 with
      | .error e => (c, [.vecErr Option.none (some e)])
      | .ok c1 => (c1, [])

/-! ## Module lifecycle (module)

`module.Destroy` is a sequential loop over the registered modules in
reverse order; the only concurrency is `m.wg.Wait()`, whose return is by
WaitGroup semantics the exit of the module's Run task (run() calls
`wg.Done()` right after `Run` returns).  The loop is embedded as the
trace of events it produces. -/

/-- What a module's OnDestroy does when called: return normally, or panic
with the given stringified value. -/
structure Mod where
  onDestroyPanic : Option String

inductive DEvent where
  | closeSig : Nat → DEvent
  | runExit : Nat → DEvent
  | onDestroy : Nat → DEvent
  | logError : String → DEvent
deriving DecidableEq

/-- module.destroy: call OnDestroy under a deferred recover; a panic is
logged (with the captured stack truncated to `lenStackBuf` bytes when
`lenStackBuf > 0`) instead of propagating. -/
def destroyModule (lsb : Nat) (st : String) (i : Nat) (m : Mod) : List DEvent :=
  match m.onDestroyPanic with
  | Option.none => [.onDestroy i]
  | some r => [.onDestroy i, .logError (if 0 < lsb then r ++ ": " ++ st.take lsb else r)]

/-- One iteration of module.Destroy for module `i`: send on the module's
close-signal channel, wait for its Run task to exit (`wg.Wait`), then run
module.destroy on it. -/
def destroyStep (lsb : Nat) (st : String) (mods : List Mod) (i : Nat) : List DEvent :=
  [.closeSig i, .runExit i] ++ destroyModule lsb st i (mods.getD i ⟨Option.none⟩)

/-- module.Destroy: iterate the registered modules from the last to the
first (`for i := len(mods) - 1; i >= 0; i--`), producing the concatenated
event trace. -/
def Destroy (lsb : Nat) (st : String) (mods : List Mod) : List DEvent :=
  (List.range mods.length).reverse.foldl (fun tr i => tr ++ destroyStep lsb st mods i) []

/-- Projection selecting the OnDestroy events of a trace. -/
def onDestroyIdx : DEvent → Option Nat
  | .onDestroy i => some i
  | _ => Option.none

/-! ## Linear context (g.LinearContext)

`LinearContext.Go` pushes the pair onto a FIFO under `mutexLinearGo` and
spawns a goroutine that, under `mutexExecution`, pops the FIFO's head,
runs it, and posts (defer) the popped callback on the engine's callback
channel.  The concurrency is embedded as a step relation: `submit` is the
locked PushBack (submissions numbered in submission order), `start` is
acquiring the execution lock and popping the head (possible only when no
function of the context is running), and `finish` is the run function
completing, its callback being posted on ChanCb, and the execution lock
being released. -/

structure LCState where
  fifo : List Nat
  running : Option Nat
  executed : List Nat
  cbPosted : List Nat
  submitted : Nat
deriving DecidableEq

def LCInit : LCState := ⟨[], Option.none, [], [], 0⟩

inductive LCStep : LCState → LCState → Prop where
  | submit (s : LCState) :
      LCStep s { s with fifo := s.fifo ++ [s.submitted], submitted := s.submitted + 1 }
  | start (s : LCState) (i : Nat) (rest : List Nat) :
      s.running = Option.none → s.fifo = i :: rest →
      LCStep s { s with fifo := rest, running := some i }
  | finish (s : LCState) (i : Nat) :
      s.running = some i →
      LCStep s { s with running := Option.none, executed := s.executed ++ [i],
                        cbPosted := s.cbPosted ++ [i] }

/-- States a linear context can be in after any interleaving of
submissions, executions and completions. -/
def LCReachable (s : LCState) : Prop := Relation.ReflTransGen LCStep LCInit s

/-! ## Cron expressions (timer)

Go `time.Time` values (at second resolution, in a fixed location with no
DST, as the cron engine uses them) are embedded as civil date-time
tuples; `DT.key` is an order embedding of the chronological order for
valid tuples.  `CronExpr.Next`'s `goto retry` control flow is embedded as
mutually recursive loop functions on a fuel budget; exhausted fuel yields
`Option.none`, which is also how the zero `time.Time\x7b\x7d` result of
the year-guard is modelled. -/

structure DT where
  y : Int
  mo : Nat
  d : Nat
  h : Nat
  mi : Nat
  s : Nat
deriving DecidableEq

def isLeap (y : Int) : Bool := y % 4 == 0 && (y % 100 != 0 || y % 400 == 0)

def daysInMonth (y : Int) (m : Nat) : Nat :=
  if m = 2 then (if isLeap y then 29 else 28)
  else if m = 4 ∨ m = 6 ∨ m = 9 ∨ m = 11 then 30
  else 31

theorem daysInMonth_pos (y : Int) (m : Nat) : 0 < daysInMonth y m := by
  unfold daysInMonth
  split <;> [split <;> omega; split <;> omega]

def DT.Valid (t : DT) : Prop :=
  1 ≤ t.mo ∧ t.mo ≤ 12 ∧ 1 ≤ t.d ∧ t.d ≤ daysInMonth t.y t.mo ∧
    t.h < 24 ∧ t.mi < 60 ∧ t.s < 60

instance (t : DT) : Decidable t.Valid := by unfold DT.Valid; infer_instance

/-- Order embedding of valid civil tuples into the integers: positional
with bases exceeding each field's range, so that for valid tuples
`key t < key u` is exactly chronological order. -/
def DT.key (t : DT) : Int :=
  ((((t.y * 13 + t.mo) * 32 + t.d) * 24 + t.h) * 60 + t.mi) * 60 + t.s

/-- Go `time.Date` day normalization: while the day exceeds the month's
length, subtract the month's length and move to the next month. -/
def rollDays (y : Int) (m : Nat) (d : Nat) : Int × Nat × Nat :=
  if _h : daysInMonth y m < d then
    if m = 12 then rollDays (y + 1) 1 (d - daysInMonth y m)
    else rollDays y (m + 1) (d - daysInMonth y m)
  else (y, m, d)
termination_by d
decreasing_by
  all_goals
    have hp := daysInMonth_pos y m
    omega

/-- Go `time.Date` month normalization for a month value in 1..13. -/
def normYM (y : Int) (m : Nat) : Int × Nat :=
  if 12 < m then (y + 1, m - 12) else (y, m)

/-- `t.AddDate(0, 1, 0)`: add one month, then normalize the resulting
civil date (e.g. Jan 30 plus one month normalizes through Feb 30 to
Mar 1/2). -/
def addMonth (t : DT) : DT :=
  let ym := normYM t.y (t.mo + 1)
  let ymd := rollDays ym.1 ym.2 t.d
  { t with y := ymd.1, mo := ymd.2.1, d := ymd.2.2 }

/-- `t.AddDate(0, 0, 1)`: add one day with date normalization. -/
def addDay (t : DT) : DT :=
  let ymd := rollDays t.y t.mo (t.d + 1)
  { t with y := ymd.1, mo := ymd.2.1, d := ymd.2.2 }

/-- `t.Add(time.Hour)` on a valid civil tuple: increment the hour with
carry into the date. -/
def addHour (t : DT) : DT :=
  if t.h < 23 then { t with h := t.h + 1 } else { addDay t with h := 0 }

/-- `t.Add(time.Minute)` on a valid civil tuple. -/
def addMinute (t : DT) : DT :=
  if t.mi < 59 then { t with mi := t.mi + 1 } else { addHour t with mi := 0 }

/-- `t.Add(time.Second)` on a valid civil tuple. -/
def addSecond (t : DT) : DT :=
  if t.s < 59 then { t with s := t.s + 1 } else addMinute { t with s := 0 }

structure CronExpr where
  sec : Nat
  min : Nat
  hour : Nat
  dom : Nat
  month : Nat
  dow : Nat
deriving DecidableEq

/-- `t.Weekday()` (Sunday = 0) computed from the civil date by Sakamoto's
method, with floor division so that it agrees on all years. -/
def weekday (t : DT) : Nat :=
  let yAdj : Int := if t.mo < 3 then t.y - 1 else t.y
  let tTab : Nat := [0, 3, 2, 5, 0, 3, 5, 1, 4, 6, 2, 4].getD (t.mo - 1) 0
  ((yAdj + yAdj.fdiv 4 - yAdj.fdiv 100 + yAdj.fdiv 400 + tTab + t.d) % 7).toNat

/-- CronExpr.matchDay: when all day-of-month bits 1..31 are set only the
day-of-week mask decides; when all day-of-week bits 0..6 are set only the
day-of-month mask decides; otherwise either mask may match. -/
def CronExpr.matchDay (e : CronExpr) (t : DT) : Bool :=
  if e.dom = 0xfffffffe then e.dow.testBit (weekday t)
  else if e.dow = 0x7f then e.dom.testBit t.d
  else e.dow.testBit (weekday t) || e.dom.testBit t.d

mutual

/-- The `retry` label of CronExpr.Next: give up with the zero time once
the scan has crossed past the year after the starting year, otherwise
enter the month loop. -/
def nextRetry (e : CronExpr) (year0 : Int) : Nat → Bool → DT → Option DT
  | 0, _, _ => Option.none
  | fuel + 1, ini, t =>
      if year0 + 1 < t.y then Option.none
      else monthLoop e year0 (fuel + 1) ini t

/-- The month loop of CronExpr.Next: while the month's bit is unset,
reset to the first of the month at midnight (once, recorded in the init
flag), add a month, and go back to `retry` when the scan wraps into
January. -/
def monthLoop (e : CronExpr) (year0 : Int) : Nat → Bool → DT → Option DT
  | 0, _, _ => Option.none
  | fuel + 1, ini, t =>
      if e.month.testBit t.mo then dayLoop e year0 (fuel + 1) ini t
      else
        let t1 := if ini then t else { t with d := 1, h := 0, mi := 0, s := 0 }
        let t2 := addMonth t1
        if t2.mo = 1 then nextRetry e year0 fuel true t2
        else monthLoop e year0 fuel true t2

/-- The day loop of CronExpr.Next, driven by matchDay. -/
def dayLoop (e : CronExpr) (year0 : Int) : Nat → Bool → DT → Option DT
  | 0, _, _ => Option.none
  | fuel + 1, ini, t =>
      if e.matchDay t then hourLoop e year0 (fuel + 1) ini t
      else
        let t1 := if ini then t else { t with h := 0, mi := 0, s := 0 }
        let t2 := addDay t1
        if t2.d = 1 then nextRetry e year0 fuel true t2
        else dayLoop e year0 fuel true t2

/-- The hour loop of CronExpr.Next. -/
def hourLoop (e : CronExpr) (year0 : Int) : Nat → Bool → DT → Option DT
  | 0, _, _ => Option.none
  | fuel + 1, ini, t =>
      if e.hour.testBit t.h then minuteLoop e year0 (fuel + 1) ini t
      else
        let t1 := if ini then t else { t with mi := 0, s := 0 }
        let t2 := addHour t1
        if t2.h = 0 then nextRetry e year0 fuel true t2
        else hourLoop e year0 fuel true t2

/-- The minute loop of CronExpr.Next. -/
def minuteLoop (e : CronExpr) (year0 : Int) : Nat → Bool → DT → Option DT
  | 0, _, _ => Option.none
  | fuel + 1, ini, t =>
      if e.min.testBit t.mi then secondLoop e year0 (fuel + 1) ini t
      else
        let t1 := if ini then t else { t with s := 0 }
        let t2 := addMinute t1
        if t2.mi = 0 then nextRetry e year0 fuel true t2
        else minuteLoop e year0 fuel true t2

/-- The second loop of CronExpr.Next; when the second's bit is set the
scan is complete and the current time is returned. -/
def secondLoop (e : CronExpr) (year0 : Int) : Nat → Bool → DT → Option DT
  | 0, _, _ => Option.none
  | fuel + 1, _, t =>
      if e.sec.testBit t.s then some t
      else
        let t2 := addSecond t
        if t2.s = 0 then nextRetry e year0 fuel true t2
        else secondLoop e year0 fuel true t2

end

/-- Fuel budget for the embedded Next; the source's loops always finish
well within it because the year guard stops the scan two year boundaries
after the start. -/
def cronFuel : Nat := 1000000

/-- CronExpr.Next: step to the next whole second (`Truncate` then `Add`;
the embedding has second resolution, so truncation is the identity),
remember the starting year, and run the scan.  `Option.none` is the zero
time. -/
def CronExpr.Next (e : CronExpr) (t : DT) : Option DT :=
  let t1 := addSecond t
  nextRetry e t1.y cronFuel false t1

/-! ## Protobuf processor (network/protobuf)

Registered message types are opaque tokens; the registry is the list of
registered types in registration order, each type's id being its
position. -/

abbrev MsgType := Nat

structure PbProcessor where
  littleEndian : Bool
  msgInfo : List MsgType

/-- Processor.Unmarshal: reject data shorter than the 2-byte id, decode
the id in the configured endianness, reject ids at or beyond the registry
size, and otherwise decode the remaining bytes into a fresh message of
the registered type (the protobuf body decoding itself is outside the
model; the result records the registered type the data is decoded into
and the bytes handed to the decoder). -/
def PbProcessor.Unmarshal (p : PbProcessor) (data : List Nat) :
    Except String (MsgType × List Nat) :=
  if data.length < 2 then .error "protobuf data too short"
  else
    let id := if p.littleEndian then data.getD 0 0 + 256 * data.getD 1 0
              else 256 * data.getD 0 0 + data.getD 1 0
    if p.msgInfo.length ≤ id then .error ("message id " ++ toString id ++ " not registered")
    else .ok (p.msgInfo.getD id 0, data.drop 2)

/-! ## Theorems -/

theorem setWidth_len (p : MsgParser) (w : Nat) :
    (setWidth p w).lenMsgLen = if w = 1 ∨ w = 2 ∨ w = 4 then w else p.lenMsgLen := by
  unfold setWidth; split_ifs <;> rfl

theorem setWidth_min (p : MsgParser) (w : Nat) : (setWidth p w).minMsgLen = p.minMsgLen := by
  unfold setWidth; split_ifs <;> rfl

theorem setWidth_max (p : MsgParser) (w : Nat) : (setWidth p w).maxMsgLen = p.maxMsgLen := by
  unfold setWidth; split_ifs <;> rfl

theorem setMin_len (p : MsgParser) (mn : Nat) : (setMin p mn).lenMsgLen = p.lenMsgLen := by
  unfold setMin; split_ifs <;> rfl

theorem setMin_min (p : MsgParser) (mn : Nat) :
    (setMin p mn).minMsgLen = if mn = 0 then p.minMsgLen else mn := by
  unfold setMin; split_ifs <;> simp_all

theorem setMin_max (p : MsgParser) (mn : Nat) : (setMin p mn).maxMsgLen = p.maxMsgLen := by
  unfold setMin; split_ifs <;> rfl

theorem setMax_len (p : MsgParser) (mx : Nat) : (setMax p mx).lenMsgLen = p.lenMsgLen := by
  unfold setMax; split_ifs <;> rfl

theorem setMax_min (p : MsgParser) (mx : Nat) : (setMax p mx).minMsgLen = p.minMsgLen := by
  unfold setMax; split_ifs <;> rfl

theorem setMax_max (p : MsgParser) (mx : Nat) :
    (setMax p mx).maxMsgLen = if mx = 0 then p.maxMsgLen else mx := by
  unfold setMax; split_ifs <;> simp_all

theorem clampMin_len (p : MsgParser) : (clampMin p).lenMsgLen = p.lenMsgLen := by
  unfold clampMin; split_ifs <;> rfl

theorem clampMin_min (p : MsgParser) :
    (clampMin p).minMsgLen = min p.minMsgLen (maxRepr p.lenMsgLen) := by
  unfold clampMin; split_ifs <;> simp <;> omega

theorem clampMin_max (p : MsgParser) : (clampMin p).maxMsgLen = p.maxMsgLen := by
  unfold clampMin; split_ifs <;> rfl

theorem clampMax_len (p : MsgParser) : (clampMax p).lenMsgLen = p.lenMsgLen := by
  unfold clampMax; split_ifs <;> rfl

theorem clampMax_min (p : MsgParser) : (clampMax p).minMsgLen = p.minMsgLen := by
  unfold clampMax; split_ifs <;> rfl

theorem clampMax_max (p : MsgParser) :
    (clampMax p).maxMsgLen = min p.maxMsgLen (maxRepr p.lenMsgLen) := by
  unfold clampMax; split_ifs <;> simp <;> omega

theorem maxRepr_eq (L : Nat) (h : L = 1 ∨ L = 2 ∨ L = 4) : maxRepr L = 2 ^ (8 * L) - 1 := by
  rcases h with h | h | h <;> subst h <;> norm_num [maxRepr]

/-- C5: after `SetMsgLen(lenMsgLen, minMsgLen, maxMsgLen)` the stored
width is the argument when it is 1, 2 or 4 and is otherwise unchanged; a
zero minimum or maximum keeps the previous (default) value; and the
resulting minimum and maximum are clamped down to
`2 ^ (8 * lenMsgLen) - 1` when they exceed it. -/
theorem setMsgLen_clamps (p : MsgParser) (w mn mx : Nat)
    (hp : p.lenMsgLen = 1 ∨ p.lenMsgLen = 2 ∨ p.lenMsgLen = 4) :
    (p.SetMsgLen w mn mx).lenMsgLen = (if w = 1 ∨ w = 2 ∨ w = 4 then w else p.lenMsgLen) ∧
    (p.SetMsgLen w mn mx).minMsgLen =
      min (if mn = 0 then p.minMsgLen else mn)
        (2 ^ (8 * (p.SetMsgLen w mn mx).lenMsgLen) - 1) ∧
    (p.SetMsgLen w mn mx).maxMsgLen =
      min (if mx = 0 then p.maxMsgLen else mx)
        (2 ^ (8 * (p.SetMsgLen w mn mx).lenMsgLen) - 1) := by
  have e1 : (p.SetMsgLen w mn mx).lenMsgLen
      = if w = 1 ∨ w = 2 ∨ w = 4 then w else p.lenMsgLen := by
    show (clampMax _).lenMsgLen = _
    rw [clampMax_len, clampMin_len, setMax_len, setMin_len, setWidth_len]
  have hLv : ((if w = 1 ∨ w = 2 ∨ w = 4 then w else p.lenMsgLen) = 1 ∨
      (if w = 1 ∨ w = 2 ∨ w = 4 then w else p.lenMsgLen) = 2 ∨
      (if w = 1 ∨ w = 2 ∨ w = 4 then w else p.lenMsgLen) = 4) := by
    split_ifs with h
    · exact h
    · exact hp
  refine ⟨e1, ?_, ?_⟩
  · rw [e1, ← maxRepr_eq _ hLv]
    show (clampMax _).minMsgLen = _
    rw [clampMax_min, clampMin_min, setMax_min, setMin_min, setWidth_min,
      setMax_len, setMin_len, setWidth_len]
  · rw [e1, ← maxRepr_eq _ hLv]
    show (clampMax _).maxMsgLen = _
    rw [clampMax_max, clampMin_max, setMax_max, setMin_max, setWidth_max,
      clampMin_len, setMax_len, setMin_len, setWidth_len]

/-- C5 witness: setting width 1 with a zero minimum and an over-range
maximum keeps the default minimum and clamps the maximum to 255. -/
theorem setMsgLen_clamps_witness :
    (NewMsgParser.lenMsgLen = 1 ∨ NewMsgParser.lenMsgLen = 2 ∨ NewMsgParser.lenMsgLen = 4) ∧
    ((NewMsgParser.SetMsgLen 1 0 70000).lenMsgLen
        = (if (1 : Nat) = 1 ∨ (1 : Nat) = 2 ∨ (1 : Nat) = 4 then 1 else NewMsgParser.lenMsgLen) ∧
      (NewMsgParser.SetMsgLen 1 0 70000).minMsgLen =
        min (if (0 : Nat) = 0 then NewMsgParser.minMsgLen else 0)
          (2 ^ (8 * (NewMsgParser.SetMsgLen 1 0 70000).lenMsgLen) - 1) ∧
      (NewMsgParser.SetMsgLen 1 0 70000).maxMsgLen =
        min (if (70000 : Nat) = 0 then NewMsgParser.maxMsgLen else 70000)
          (2 ^ (8 * (NewMsgParser.SetMsgLen 1 0 70000).lenMsgLen) - 1)) :=
  ⟨by decide, setMsgLen_clamps NewMsgParser 1 0 70000 (by decide)⟩

/-- C10: `Server.Go` with an unregistered id returns normally with the
server unchanged: nothing is enqueued on the call channel, no error is
reported, and no panic escapes. -/
theorem serverGo_unregistered (s : Server) (id : Nat) (args : List Val)
    (h : s.functions.lookup id = Option.none) :
    Server.Go s id args = s := by
  simp [Server.Go, h]

/-- C10 witness: Go on an empty registry leaves the server unchanged. -/
theorem serverGo_unregistered_witness :
    (Server.functions ⟨[], [], 4⟩).lookup 7 = Option.none ∧
      Server.Go ⟨[], [], 4⟩ 7 [1, 2] = ⟨[], [], 4⟩ :=
  ⟨rfl, serverGo_unregistered ⟨[], [], 4⟩ 7 [1, 2] rfl⟩

/-- C9: the binary protobuf Unmarshal rejects inputs shorter than two
bytes with `protobuf data too short`, rejects decoded ids at or beyond
the number of registered types with `message id not registered`, and only
inputs passing both checks are decoded, into the registered type for the
decoded id. -/
theorem pbUnmarshal_checks (p : PbProcessor) (data : List Nat) :
    (data.length < 2 → p.Unmarshal data = .error "protobuf data too short") ∧
    (∀ id : Nat, 2 ≤ data.length →
      id = (if p.littleEndian then data.getD 0 0 + 256 * data.getD 1 0
            else 256 * data.getD 0 0 + data.getD 1 0) →
      (p.msgInfo.length ≤ id →
        p.Unmarshal data = .error ("message id " ++ toString id ++ " not registered")) ∧
      (id < p.msgInfo.length →
        p.Unmarshal data = .ok (p.msgInfo.getD id 0, data.drop 2))) := by
  refine ⟨fun hshort => ?_, fun id hlen hid => ⟨fun hge => ?_, fun hlt => ?_⟩⟩
  · simp [PbProcessor.Unmarshal, hshort]
  · simp only [PbProcessor.Unmarshal, ← hid]
    rw [if_neg (by omega), if_pos hge]
  · simp only [PbProcessor.Unmarshal, ← hid]
    rw [if_neg (by omega), if_neg (by omega)]

/-- C9 witness: with two registered types, a three-byte frame with id 1
decodes to the second type, discharging the length and id hypotheses at
concrete inputs. -/
theorem pbUnmarshal_checks_witness :
    (2 ≤ [0, 1, 9].length ∧ (1 : Nat) = (if (false : Bool) = true
        then [0, 1, 9].getD 0 0 + 256 * [0, 1, 9].getD 1 0
        else 256 * [0, 1, 9].getD 0 0 + [0, 1, 9].getD 1 0) ∧ 1 < [41, 42].length) ∧
      PbProcessor.Unmarshal ⟨false, [41, 42]⟩ [0, 1, 9] = .ok (42, [9]) :=
  ⟨⟨by decide, by decide, by decide⟩,
    ((pbUnmarshal_checks ⟨false, [41, 42]⟩ [0, 1, 9]).2 1 (by decide) (by decide)).2 (by decide)⟩

/-- A call descriptor whose function panics with value "boom", used to
exhibit what Exec delivers on its two output paths. -/
def panicCall : CallInfo := ⟨.noRet fun _ => .error "boom", [], true, Option.none⟩

/-- C2 counterexample: with `LenStackBuf = 16` and captured stack
"stack", the RetInfo delivered to the return channel carries the plain
stringified panic value "boom", not the stack-augmented "boom: stack" the
claim requires there; only Exec's own return value carries the stack. -/
theorem exec_retinfo_no_stack :
    Server.Exec 16 "stack" panicCall =
      (some ⟨RetVal.nil, some "boom", Option.none⟩, some "boom: stack") ∧
    ("boom" : String) ≠ "boom: stack" := by
  constructor
  · rfl
  · decide

/-- C2 (amended): when the invoked function panics with value `r`, the
RetInfo delivered through the normal return path carries the stringified
panic value `r` alone whatever `LenStackBuf` is; the error augmented with
the captured stack trace of up to `LenStackBuf` bytes (when
`LenStackBuf > 0`) is the value Exec itself returns; the panic does not
escape Exec. -/
theorem exec_panic_delivery (lsb : Nat) (st : String) (ci : CallInfo) (r : String)
    (h : runFn ci.f ci.args = .error r) :
    Server.Exec lsb st ci =
      ((if ci.hasRetChan then some ⟨RetVal.nil, some r, ci.cb⟩ else Option.none),
        some (if 0 < lsb then r ++ ": " ++ st.take lsb else r)) := by
  simp [Server.Exec, h]

/-- C2 witness: the amended delivery applied to the concrete panicking
call with `LenStackBuf = 16`. -/
theorem exec_panic_delivery_witness :
    runFn panicCall.f panicCall.args = .error "boom" ∧
      Server.Exec 16 "stack" panicCall =
        ((if panicCall.hasRetChan
            then some ⟨RetVal.nil, some "boom", Option.none⟩ else Option.none),
          some (if 0 < 16 then "boom" ++ ": " ++ ("stack" : String).take 16 else "boom")) :=
  ⟨rfl, exec_panic_delivery 16 "stack" panicCall "boom" rfl⟩

/-- C3: a synchronous call whose expected result shape disagrees with the
registered function's shape returns `return type mismatch` naming the
function id, and an unregistered id returns `function not registered`; in
every such case the Bool instrumenting dispatch is false: no registered
function is invoked. -/
theorem call_shape_validation (lsb : Nat) (st : String) (s : Server) (id : Nat)
    (args : List Val) :
    (s.functions.lookup id = Option.none →
      Client.Call0 lsb st s id args
        = (.error ("function id " ++ toString id ++ ": function not registered"), false) ∧
      Client.Call1 lsb st s id args
        = ((RetVal.nil,
            some ("function id " ++ toString id ++ ": function not registered")), false) ∧
      Client.CallN lsb st s id args
        = ((Option.none,
            some ("function id " ++ toString id ++ ": function not registered")), false)) ∧
    (∀ f, s.functions.lookup id = some f →
      (fnShape f ≠ 0 → Client.Call0 lsb st s id args
        = (.error ("function id " ++ toString id ++ ": return type mismatch"), false)) ∧
      (fnShape f ≠ 1 → Client.Call1 lsb st s id args
        = ((RetVal.nil,
            some ("function id " ++ toString id ++ ": return type mismatch")), false)) ∧
      (fnShape f ≠ 2 → Client.CallN lsb st s id args
        = ((Option.none,
            some ("function id " ++ toString id ++ ": return type mismatch")), false))) := by
  constructor
  · intro h
    refine ⟨?_, ?_, ?_⟩ <;> simp [Client.Call0, Client.Call1, Client.CallN, Client.f, h]
  · intro f hf
    refine ⟨fun h0 => ?_, fun h1 => ?_, fun h2 => ?_⟩
    · simp [Client.Call0, Client.f, hf, h0]
    · simp [Client.Call1, Client.f, hf, h1]
    · simp [Client.CallN, Client.f, hf, h2]

/-- A registered function returning one value, for concrete instances. -/
def sampleFn : GoFn := .oneRet fun _ => .ok 7

/-- A server with `sampleFn` registered under id 5. -/
def sampleServer : Server := ⟨[(5, sampleFn)], [], 1⟩

/-- C3 witness: id 9 is unregistered and `sampleFn` does not have the
no-result shape, so Call0 fails both ways at concrete inputs. -/
theorem call_shape_validation_witness :
    (sampleServer.functions.lookup 9 = Option.none ∧
      sampleServer.functions.lookup 5 = some sampleFn ∧ fnShape sampleFn ≠ 0) ∧
      (Client.Call0 0 "" sampleServer 9 []
          = (.error ("function id " ++ toString 9 ++ ": function not registered"), false) ∧
        Client.Call1 0 "" sampleServer 9 []
          = ((RetVal.nil,
              some ("function id " ++ toString 9 ++ ": function not registered")), false) ∧
        Client.CallN 0 "" sampleServer 9 []
          = ((Option.none,
              some ("function id " ++ toString 9 ++ ": function not registered")), false)) ∧
      Client.Call0 0 "" sampleServer 5 []
        = (.error ("function id " ++ toString 5 ++ ": return type mismatch"), false) :=
  ⟨⟨rfl, rfl, by decide⟩,
    (call_shape_validation 0 "" sampleServer 9 []).1 rfl,
    (((call_shape_validation 0 "" sampleServer 5 []).2 sampleFn rfl).1 (by decide))⟩

/-- C4: an `AsynCall` whose non-blocking enqueue hits a full call channel
leaves the client unchanged (in particular `pendingAsynCall` is not
incremented) and invokes the callback immediately and synchronously with
the error `chanrpc channel full` and nil results; a successful enqueue
appends the descriptor and increments `pendingAsynCall` by exactly one
with no immediate callback. -/
theorem asynCall_full_channel (c : Client) (id : Nat) (args : List Val) (cb : CB) (f : GoFn)
    (hf : Client.f c.s id (cbArity cb) = .ok f) :
    (c.s.chanCallCap ≤ c.s.chanCall.length →
      Client.AsynCall c id args cb = (c, [cbErrEvent cb "chanrpc channel full"])) ∧
    (c.s.chanCall.length < c.s.chanCallCap →
      Client.AsynCall c id args cb =
        ({ s := { c.s with chanCall := c.s.chanCall ++ [⟨f, args, true, some cb⟩] },
           pendingAsynCall := c.pendingAsynCall + 1 }, [])) := by
  cases cb <;> simp only [cbArity] at hf <;>
    refine ⟨fun hfull => ?_, fun hroom => ?_⟩ <;>
      simp only [Client.AsynCall, Client.asynCall, hf] <;>
        [rw [if_pos hfull]; rw [if_neg (by omega)]; rw [if_pos hfull];
          rw [if_neg (by omega)]; rw [if_pos hfull]; rw [if_neg (by omega)]] <;>
          simp [cbErrEvent]

/-- A client on a zero-capacity call channel with `sampleFn` registered
under id 5: every non-blocking enqueue finds the channel full. -/
def fullClient : Client := ⟨⟨[(5, sampleFn)], [], 0⟩, 3⟩

/-- C4 witness: on the zero-capacity channel the value-and-error callback
fires synchronously with `chanrpc channel full` and the client (and its
pending counter) is unchanged. -/
theorem asynCall_full_channel_witness :
    (Client.f fullClient.s 5 (cbArity CB.valErr) = .ok sampleFn ∧
      fullClient.s.chanCallCap ≤ fullClient.s.chanCall.length) ∧
      Client.AsynCall fullClient 5 [4] CB.valErr
        = (fullClient, [cbErrEvent CB.valErr "chanrpc channel full"]) :=
  ⟨⟨rfl, by decide⟩,
    (asynCall_full_channel fullClient 5 [4] CB.valErr sampleFn rfl).1 (by decide)⟩

theorem foldl_append_eq_bind (g : Nat → List DEvent) :
    ∀ (l : List Nat) (acc : List DEvent),
      l.foldl (fun tr i => tr ++ g i) acc = acc ++ l.flatMap g := by
  intro l
  induction l with
  | nil => simp
  | cons a l ih => intro acc; simp [ih, List.append_assoc]

theorem destroy_eq_bind (lsb : Nat) (st : String) (mods : List Mod) :
    Destroy lsb st mods = (List.range mods.length).reverse.flatMap (destroyStep lsb st mods) := by
  unfold Destroy
  rw [foldl_append_eq_bind]
  rfl

theorem filterMap_onDestroy_bind (lsb : Nat) (st : String) (mods : List Mod) :
    ∀ l : List Nat, (l.flatMap (destroyStep lsb st mods)).filterMap onDestroyIdx = l := by
  intro l
  induction l with
  | nil => simp
  | cons a l ih =>
      rw [List.flatMap_cons, List.filterMap_append, ih]
      have hblock : (destroyStep lsb st mods a).filterMap onDestroyIdx = [a] := by
        unfold destroyStep destroyModule
        cases h : (mods.getD a ⟨Option.none⟩).onDestroyPanic <;>
          simp [onDestroyIdx]
      rw [hblock]
      rfl

/-- C7: `module.Destroy` visits the registered modules in reverse
registration order — the OnDestroy events of its trace are exactly the
indices n-1, ..., 0 in that order — and for each module the trace
contains, consecutively, the send on its close-signal channel, the exit
of its Run task (the return of `wg.Wait`), and only then the start of its
OnDestroy; a panicking OnDestroy is logged and does not stop the
remaining modules from being destroyed. -/
theorem destroy_reverse_order (lsb : Nat) (st : String) (mods : List Mod) :
    (Destroy lsb st mods).filterMap onDestroyIdx = (List.range mods.length).reverse ∧
    ∀ i < mods.length, ∃ pre post,
      Destroy lsb st mods
        = pre ++ [DEvent.closeSig i, DEvent.runExit i, DEvent.onDestroy i] ++ post := by
  constructor
  · rw [destroy_eq_bind, filterMap_onDestroy_bind]
  · intro i hi
    have hmem : i ∈ (List.range mods.length).reverse := by
      rw [List.mem_reverse, List.mem_range]; exact hi
    obtain ⟨l1, l2, hsplit⟩ := List.append_of_mem hmem
    rw [destroy_eq_bind, hsplit, List.flatMap_append, List.flatMap_cons]
    refine ⟨l1.flatMap (destroyStep lsb st mods),
      (if h : (mods.getD i ⟨Option.none⟩).onDestroyPanic = Option.none then []
        else [DEvent.logError ((mods.getD i ⟨Option.none⟩).onDestroyPanic.getD ""
          |> fun r => if 0 < lsb then r ++ ": " ++ st.take lsb else r)])
        ++ l2.flatMap (destroyStep lsb st mods), ?_⟩
    unfold destroyStep destroyModule
    cases h : (mods.getD i ⟨Option.none⟩).onDestroyPanic <;> simp [h, List.append_assoc]

/-- A module whose OnDestroy panics with value "oops". -/
def modPanic : Mod := ⟨some "oops"⟩

/-- A module whose OnDestroy returns normally. -/
def modOk : Mod := ⟨Option.none⟩

/-- C7 witness: for three registered modules (the middle one panicking in
OnDestroy) the OnDestroy events appear in order 2, 1, 0, and module 1's
close-signal, Run-exit and OnDestroy appear consecutively. -/
theorem destroy_reverse_order_witness :
    ((1 : Nat) < [modOk, modPanic, modOk].length) ∧
      (Destroy 0 "" [modOk, modPanic, modOk]).filterMap onDestroyIdx
        = (List.range [modOk, modPanic, modOk].length).reverse ∧
      ∃ pre post, Destroy 0 "" [modOk, modPanic, modOk]
        = pre ++ [DEvent.closeSig 1, DEvent.runExit 1, DEvent.onDestroy 1] ++ post :=
  ⟨by decide, (destroy_reverse_order 0 "" [modOk, modPanic, modOk]).1,
    (destroy_reverse_order 0 "" [modOk, modPanic, modOk]).2 1 (by decide)⟩

/-- C6: in every state a linear context can reach, the functions that
have finished executing, the one currently executing (there is at most
one: the execution lock), and the FIFO of pending submissions are, in
that order, exactly the submissions 0, ..., submitted-1 in submission
order — so functions execute in strict submission order and never
overlap — and the callbacks posted to the owning engine's callback
channel are exactly the completed submissions in that order.  In
particular the executed list is literally `0, 1, ..., k-1`. -/
theorem linear_context_order (s : LCState) (h : LCReachable s) :
    s.executed ++ s.running.toList ++ s.fifo = List.range s.submitted ∧
    s.cbPosted = s.executed ∧
    s.executed = List.range s.executed.length := by
  have main : s.executed ++ s.running.toList ++ s.fifo = List.range s.submitted ∧
      s.cbPosted = s.executed := by
    induction h with
    | refl => simp [LCInit]
    | tail _ hstep ih =>
        obtain ⟨ih1, ih2⟩ := ih
        cases hstep with
        | submit =>
            refine ⟨?_, ih2⟩
            simp only [List.range_succ, ← ih1]
            simp [List.append_assoc]
        | start i rest hrun hfifo =>
            refine ⟨?_, ih2⟩
            rw [← ih1, hrun, hfifo]
            simp
        | finish i hrun =>
            refine ⟨?_, by simp [ih2]⟩
            rw [← ih1, hrun]
            simp [List.append_assoc]
  refine ⟨main.1, main.2, ?_⟩
  obtain ⟨t, ht⟩ : ∃ t, s.executed ++ t = List.range s.submitted :=
    ⟨s.running.toList ++ s.fifo, by rw [← main.1]; simp [List.append_assoc]⟩
  have hlen : s.executed.length ≤ s.submitted := by
    have := congrArg List.length ht
    simp at this
    omega
  calc s.executed = (s.executed ++ t).take s.executed.length := by simp
    _ = (List.range s.submitted).take s.executed.length := by rw [ht]
    _ = List.range s.executed.length := by
        rw [List.take_range, Nat.min_eq_left hlen]

/-- The state of a linear context after submitting two functions,
executing the first and completing it: submission 1 still pending,
nothing running, submission 0 executed and its callback posted. -/
def lcSample : LCState := ⟨[1], Option.none, [0], [0], 2⟩

/-- C6 witness: the sample state is reachable by submit, submit, start,
finish, and the invariant instantiates to it. -/
theorem linear_context_order_witness :
    LCReachable lcSample ∧
      (lcSample.executed ++ lcSample.running.toList ++ lcSample.fifo
          = List.range lcSample.submitted ∧
        lcSample.cbPosted = lcSample.executed ∧
        lcSample.executed = List.range lcSample.executed.length) := by
  have h1 : Relation.ReflTransGen LCStep LCInit ⟨[0], Option.none, [], [], 1⟩ :=
    Relation.ReflTransGen.single (LCStep.submit LCInit)
  have h2 : Relation.ReflTransGen LCStep LCInit ⟨[0, 1], Option.none, [], [], 2⟩ :=
    h1.tail (LCStep.submit ⟨[0], Option.none, [], [], 1⟩)
  have h3 : Relation.ReflTransGen LCStep LCInit ⟨[1], some 0, [], [], 2⟩ :=
    h2.tail (LCStep.start ⟨[0, 1], Option.none, [], [], 2⟩ 0 [1] rfl rfl)
  have h : LCReachable lcSample :=
    h3.tail (LCStep.finish ⟨[1], some 0, [], [], 2⟩ 0 rfl)
  exact ⟨h, linear_context_order lcSample h⟩

theorem writeFold_eq (args : List (List Nat)) :
    ∀ acc : Nat, acc < 2 ^ 32 →
      args.foldl (fun acc a => (acc + a.length % 2 ^ 32) % 2 ^ 32) acc
        = (acc + (args.map List.length).sum) % 2 ^ 32 := by
  induction args with
  | nil => intro acc h; simp; omega
  | cons a as ih =>
      intro acc h
      simp only [List.foldl_cons, List.map_cons, List.sum_cons]
      rw [ih _ (Nat.mod_lt _ (by norm_num))]
      omega

theorem encodeLen_length (p : MsgParser) (m : Nat)
    (hw : p.lenMsgLen = 1 ∨ p.lenMsgLen = 2 ∨ p.lenMsgLen = 4) :
    (encodeLen p m).length = p.lenMsgLen := by
  rcases hw with h | h | h <;> cases hp : p.littleEndian <;> simp [encodeLen, h, hp]

theorem decode_encode (p : MsgParser) (m : Nat)
    (hw : p.lenMsgLen = 1 ∨ p.lenMsgLen = 2 ∨ p.lenMsgLen = 4)
    (hm : m < 2 ^ (8 * p.lenMsgLen)) :
    decodeLen p (encodeLen p m) = m := by
  rcases hw with h | h | h <;> rw [h] at hm <;> norm_num at hm <;>
    cases hp : p.littleEndian <;> simp [decodeLen, encodeLen, h, hp] <;> omega

theorem drop_append_len (pre x : List Nat) (k : Nat) :
    (pre ++ x).drop (pre.length + k) = x.drop k := by
  induction pre with
  | nil => simp
  | cons a l ih =>
      have hidx : (a :: l).length + k = (l.length + k) + 1 := by simp; omega
      rw [hidx, List.cons_append, List.drop_succ_cons, ih]

theorem copyAt_fill (pre a : List Nat) (k : Nat) (h : a.length ≤ k) :
    copyAt (pre ++ List.replicate k 0) pre.length a
      = (pre ++ a) ++ List.replicate (k - a.length) 0 := by
  unfold copyAt
  rw [List.take_left]
  have h1 : (pre ++ List.replicate k 0).length - pre.length = k := by simp
  rw [h1, List.take_of_length_le h, drop_append_len, List.drop_replicate,
    List.append_assoc]

theorem copyArgs_fill :
    ∀ (args : List (List Nat)) (pre : List Nat),
      copyArgs (pre ++ List.replicate ((args.map List.length).sum) 0) pre.length args
        = .ok (pre ++ args.flatten) := by
  intro args
  induction args with
  | nil => intro pre; simp [copyArgs]
  | cons a as ih =>
      intro pre
      simp only [copyArgs, List.map_cons, List.sum_cons]
      rw [if_neg (by simp)]
      have hfill := copyAt_fill pre a (a.length + (as.map List.length).sum) (by omega)
      rw [hfill]
      have hcut : a.length + (as.map List.length).sum - a.length
          = (as.map List.length).sum := by omega
      rw [hcut]
      have hlen : pre.length + a.length = (pre ++ a).length := by simp
      rw [hlen, ih (pre ++ a)]
      simp [List.append_assoc]

/-- C1 counterexample: a single chunk of 2^32 bytes has total length far
greater than the default maxMsgLen of 4096, yet Write fails with
`message too short` rather than `message too long`, because the uint32
length accumulator wraps to 0. -/
theorem write_wrap_uint32 :
    MsgParser.Write NewMsgParser [List.replicate (2 ^ 32) 0] = .error "message too short" ∧
    NewMsgParser.maxMsgLen < (List.replicate (2 ^ 32) (0 : Nat)).length := by
  constructor
  · have hfold : ([List.replicate (2 ^ 32) (0 : Nat)]).foldl
        (fun acc a => (acc + a.length % 2 ^ 32) % 2 ^ 32) 0 = 0 := by
      rw [List.foldl_cons, List.foldl_nil, List.length_replicate]
      norm_num
    unfold MsgParser.Write
    simp only [hfold]
    rw [if_neg (by norm_num [NewMsgParser]), if_pos (by norm_num [NewMsgParser])]
  · rw [List.length_replicate]
    norm_num [NewMsgParser]

/-- C1 (amended): for a framing configuration with prefix width in
{1, 2, 4}, either endianness, and bounds min ≤ max < 2^(8·width) (the
invariant SetMsgLen maintains), writing chunks whose total length lies in
[minMsgLen, maxMsgLen] (and, with the 4-byte prefix, small enough that
the uint32 buffer allocation does not wrap) produces the length-prefixed
concatenation, and reading those bytes back yields exactly the original
payload; Write fails with `message too long` for any total length above
maxMsgLen and below the uint32 wrap at 2^32, and with
`message too short` for any total length below minMsgLen. -/
theorem msgparser_framing (p : MsgParser) (args : List (List Nat)) (rest : List Nat)
    (hw : p.lenMsgLen = 1 ∨ p.lenMsgLen = 2 ∨ p.lenMsgLen = 4)
    (hmax : p.maxMsgLen < 2 ^ (8 * p.lenMsgLen))
    (hmm : p.minMsgLen ≤ p.maxMsgLen) :
    (p.minMsgLen ≤ args.flatten.length → args.flatten.length ≤ p.maxMsgLen →
      p.lenMsgLen + args.flatten.length < 2 ^ 32 →
      MsgParser.Write p args = .ok (encodeLen p args.flatten.length ++ args.flatten) ∧
      MsgParser.Read p ((encodeLen p args.flatten.length ++ args.flatten) ++ rest)
        = .ok (args.flatten, rest)) ∧
    (p.maxMsgLen < args.flatten.length → args.flatten.length < 2 ^ 32 →
      MsgParser.Write p args = .error "message too long") ∧
    (args.flatten.length < p.minMsgLen →
      MsgParser.Write p args = .error "message too short") := by
  have hpow : 2 ^ (8 * p.lenMsgLen) ≤ 2 ^ 32 := by
    rcases hw with h | h | h <;> rw [h] <;> norm_num
  have hfold : args.foldl (fun acc a => (acc + a.length % 2 ^ 32) % 2 ^ 32) 0
      = args.flatten.length % 2 ^ 32 := by
    rw [writeFold_eq args 0 (by norm_num), List.length_flatten]
    omega
  have hwlt : p.lenMsgLen < 2 ^ 32 := by rcases hw with h | h | h <;> rw [h] <;> norm_num
  refine ⟨fun hlo hhi hfit => ?_, fun hlong hlt => ?_, fun hshort => ?_⟩
  · have hlt : args.flatten.length < 2 ^ 32 := by omega
    have henc := encodeLen_length p args.flatten.length hw
    constructor
    · unfold MsgParser.Write
      simp only [hfold, Nat.mod_eq_of_lt hlt]
      rw [if_neg (by omega), if_neg (by omega)]
      have hbuf : (p.lenMsgLen % 2 ^ 32 + args.flatten.length) % 2 ^ 32
          = p.lenMsgLen + args.flatten.length := by
        rw [Nat.mod_eq_of_lt hwlt, Nat.mod_eq_of_lt hfit]
      simp only [hbuf]
      rw [if_neg (by omega)]
      have hrep : p.lenMsgLen + args.flatten.length - p.lenMsgLen
          = (args.map List.length).sum := by
        rw [← List.length_flatten]; omega
      rw [hrep]
      have := copyArgs_fill args (encodeLen p args.flatten.length)
      rw [henc] at this
      exact this
    · unfold MsgParser.Read
      rw [List.append_assoc]
      have htake : (encodeLen p args.flatten.length ++ (args.flatten ++ rest)).take p.lenMsgLen
          = encodeLen p args.flatten.length := by
        rw [← henc, List.take_left]
      have hdrop : (encodeLen p args.flatten.length ++ (args.flatten ++ rest)).drop p.lenMsgLen
          = args.flatten ++ rest := by
        rw [← henc, List.drop_left]
      have hslen : (encodeLen p args.flatten.length ++ (args.flatten ++ rest)).length
          = p.lenMsgLen + (args.flatten.length + rest.length) := by
        rw [List.length_append, List.length_append, henc]
      rw [if_neg (by omega)]
      simp only [htake, hdrop]
      rw [decode_encode p args.flatten.length hw (by omega)]
      rw [if_neg (by omega), if_neg (by omega), if_neg (by simp)]
      rw [List.take_left, List.drop_left]
  · unfold MsgParser.Write
    simp only [hfold, Nat.mod_eq_of_lt hlt]
    rw [if_pos hlong]
  · have hlt : args.flatten.length < 2 ^ 32 := by omega
    unfold MsgParser.Write
    simp only [hfold, Nat.mod_eq_of_lt hlt]
    rw [if_neg (by omega), if_pos hshort]

/-- C1 witness: the default parser round-trips the chunks [1,2],[3] and
8 trailing stream bytes survive untouched. -/
theorem msgparser_framing_witness :
    ((NewMsgParser.lenMsgLen = 1 ∨ NewMsgParser.lenMsgLen = 2 ∨ NewMsgParser.lenMsgLen = 4) ∧
      NewMsgParser.maxMsgLen < 2 ^ (8 * NewMsgParser.lenMsgLen) ∧
      NewMsgParser.minMsgLen ≤ NewMsgParser.maxMsgLen ∧
      NewMsgParser.minMsgLen ≤ ([[1, 2], [3]] : List (List Nat)).flatten.length ∧
      ([[1, 2], [3]] : List (List Nat)).flatten.length ≤ NewMsgParser.maxMsgLen ∧
      NewMsgParser.lenMsgLen + ([[1, 2], [3]] : List (List Nat)).flatten.length < 2 ^ 32) ∧
      MsgParser.Write NewMsgParser [[1, 2], [3]]
          = .ok (encodeLen NewMsgParser ([[1, 2], [3]] : List (List Nat)).flatten.length
              ++ ([[1, 2], [3]] : List (List Nat)).flatten) ∧
      MsgParser.Read NewMsgParser
          ((encodeLen NewMsgParser ([[1, 2], [3]] : List (List Nat)).flatten.length
              ++ ([[1, 2], [3]] : List (List Nat)).flatten) ++ [9])
        = .ok (([[1, 2], [3]] : List (List Nat)).flatten, [9]) :=
  ⟨⟨by decide, by decide, by decide, by decide, by decide, by decide⟩,
    (msgparser_framing NewMsgParser [[1, 2], [3]] [9] (by decide) (by decide) (by decide)).1
      (by decide) (by decide) (by decide)⟩

theorem daysInMonth_le (y : Int) (m : Nat) : daysInMonth y m ≤ 31 := by
  unfold daysInMonth
  split_ifs <;> omega

/-- Linearized date index: one unit per day, 32 units per month, 13·32
per year — an order embedding of valid civil dates. -/
def DT.dKey (t : DT) : Int := (t.y * 13 + (t.mo : Int)) * 32 + (t.d : Int)

theorem key_as_dKey (t : DT) :
    t.key = ((t.dKey * 24 + (t.h : Int)) * 60 + (t.mi : Int)) * 60 + (t.s : Int) := by
  unfold DT.key DT.dKey
  ring

theorem rollDays_spec : ∀ (d : Nat) (y : Int) (m : Nat), 1 ≤ m → m ≤ 12 → 1 ≤ d →
    1 ≤ (rollDays y m d).2.1 ∧ (rollDays y m d).2.1 ≤ 12 ∧ 1 ≤ (rollDays y m d).2.2 ∧
    (rollDays y m d).2.2 ≤ daysInMonth (rollDays y m d).1 (rollDays y m d).2.1 ∧
    (y * 13 + (m : Int)) * 32 + (d : Int)
      ≤ ((rollDays y m d).1 * 13 + ((rollDays y m d).2.1 : Int)) * 32
          + ((rollDays y m d).2.2 : Int) := by
  intro d
  induction d using Nat.strong_induction_on with
  | _ d ih =>
    intro y m h1 h12 hd
    have hpos := daysInMonth_pos y m
    have hle := daysInMonth_le y m
    unfold rollDays
    split_ifs with hlt hm
    · subst hm
      have hrec := ih (d - daysInMonth y 12) (by omega) (y + 1) 1 (by omega) (by omega) (by omega)
      refine ⟨hrec.1, hrec.2.1, hrec.2.2.1, hrec.2.2.2.1, ?_⟩
      have := hrec.2.2.2.2
      omega
    · have hrec := ih (d - daysInMonth y m) (by omega) y (m + 1) (by omega) (by omega) (by omega)
      refine ⟨hrec.1, hrec.2.1, hrec.2.2.1, hrec.2.2.2.1, ?_⟩
      have := hrec.2.2.2.2
      omega
    · dsimp only
      exact ⟨h1, h12, hd, by omega, by omega⟩

theorem addDay_spec (t : DT) (hv : t.Valid) :
    (addDay t).Valid ∧ t.dKey + 1 ≤ (addDay t).dKey ∧ (addDay t).h = t.h ∧
      (addDay t).mi = t.mi ∧ (addDay t).s = t.s := by
  obtain ⟨h1, h2, h3, h4, h5, h6, h7⟩ := hv
  have hr := rollDays_spec (t.d + 1) t.y t.mo h1 h2 (by omega)
  unfold addDay DT.dKey DT.Valid
  dsimp only
  refine ⟨⟨hr.1, hr.2.1, hr.2.2.1, hr.2.2.2.1, h5, h6, h7⟩, ?_, rfl, rfl, rfl⟩
  have := hr.2.2.2.2
  omega

theorem addMonth_spec (t : DT) (hv : t.Valid) :
    (addMonth t).Valid ∧ t.dKey + 32 ≤ (addMonth t).dKey ∧ (addMonth t).h = t.h ∧
      (addMonth t).mi = t.mi ∧ (addMonth t).s = t.s := by
  obtain ⟨h1, h2, h3, h4, h5, h6, h7⟩ := hv
  unfold addMonth normYM DT.dKey DT.Valid
  dsimp only
  split_ifs with hm
  · have hr := rollDays_spec t.d (t.y + 1) (t.mo + 1 - 12) (by omega) (by omega) h3
    dsimp only
    refine ⟨⟨hr.1, hr.2.1, hr.2.2.1, hr.2.2.2.1, h5, h6, h7⟩, ?_, rfl, rfl, rfl⟩
    have := hr.2.2.2.2
    have hmo : t.mo = 12 := by omega
    omega
  · have hr := rollDays_spec t.d t.y (t.mo + 1) (by omega) (by omega) h3
    dsimp only
    refine ⟨⟨hr.1, hr.2.1, hr.2.2.1, hr.2.2.2.1, h5, h6, h7⟩, ?_, rfl, rfl, rfl⟩
    have := hr.2.2.2.2
    omega

theorem addHour_spec (t : DT) (hv : t.Valid) :
    (addHour t).Valid ∧
      t.dKey * 24 + (t.h : Int) + 1 ≤ (addHour t).dKey * 24 + ((addHour t).h : Int) ∧
      (addHour t).mi = t.mi ∧ (addHour t).s = t.s := by
  obtain ⟨h1, h2, h3, h4, h5, h6, h7⟩ := hv
  unfold addHour
  split_ifs with hh
  · refine ⟨⟨h1, h2, h3, h4, by dsimp only; omega, h6, h7⟩, ?_, rfl, rfl⟩
    unfold DT.dKey
    dsimp only
    omega
  · obtain ⟨⟨a1, a2, a3, a4, a5, a6, a7⟩, hd, hhp, hmp, hsp⟩ :=
      addDay_spec t ⟨h1, h2, h3, h4, h5, h6, h7⟩
    refine ⟨⟨a1, a2, a3, a4, by dsimp only; omega, a6, a7⟩, ?_, hmp, hsp⟩
    unfold DT.dKey at hd ⊢
    dsimp only
    omega

theorem addMinute_spec (t : DT) (hv : t.Valid) :
    (addMinute t).Valid ∧
      (t.dKey * 24 + (t.h : Int)) * 60 + (t.mi : Int) + 1
        ≤ ((addMinute t).dKey * 24 + ((addMinute t).h : Int)) * 60 + ((addMinute t).mi : Int) ∧
      (addMinute t).s = t.s := by
  obtain ⟨h1, h2, h3, h4, h5, h6, h7⟩ := hv
  unfold addMinute
  split_ifs with hm
  · refine ⟨⟨h1, h2, h3, h4, h5, by dsimp only; omega, h7⟩, ?_, rfl⟩
    unfold DT.dKey
    dsimp only
    omega
  · obtain ⟨⟨a1, a2, a3, a4, a5, a6, a7⟩, hd, hmp, hsp⟩ :=
      addHour_spec t ⟨h1, h2, h3, h4, h5, h6, h7⟩
    refine ⟨⟨a1, a2, a3, a4, a5, by dsimp only; omega, a7⟩, ?_, hsp⟩
    unfold DT.dKey at hd ⊢
    dsimp only
    omega

theorem addSecond_spec (t : DT) (hv : t.Valid) :
    (addSecond t).Valid ∧ t.key < (addSecond t).key := by
  obtain ⟨h1, h2, h3, h4, h5, h6, h7⟩ := hv
  unfold addSecond
  split_ifs with hs
  · refine ⟨⟨h1, h2, h3, h4, h5, h6, by dsimp only; omega⟩, ?_⟩
    unfold DT.key
    dsimp only
    omega
  · have hv0 : ({ t with s := 0 } : DT).Valid := ⟨h1, h2, h3, h4, h5, h6, by dsimp only; omega⟩
    obtain ⟨hval, hkm, hsp⟩ := addMinute_spec { t with s := 0 } hv0
    refine ⟨hval, ?_⟩
    rw [key_as_dKey, key_as_dKey, hsp]
    unfold DT.dKey at hkm ⊢
    dsimp only at hkm ⊢
    omega

theorem monthIter_spec (t : DT) (ini : Bool) (hv : t.Valid) :
    (addMonth (if ini then t else { t with d := 1, h := 0, mi := 0, s := 0 })).Valid ∧
      t.key < (addMonth (if ini then t else { t with d := 1, h := 0, mi := 0, s := 0 })).key := by
  obtain ⟨h1, h2, h3, h4, h5, h6, h7⟩ := hv
  have hdle := daysInMonth_le t.y t.mo
  cases ini
  · simp only [Bool.false_eq_true, if_false]
    have hv0 : ({ t with d := 1, h := 0, mi := 0, s := 0 } : DT).Valid :=
      ⟨h1, h2, le_refl 1, daysInMonth_pos t.y t.mo, by dsimp only; omega,
        by dsimp only; omega, by dsimp only; omega⟩
    obtain ⟨hval, hdk, hh, hmi, hs⟩ := addMonth_spec _ hv0
    refine ⟨hval, ?_⟩
    rw [key_as_dKey, key_as_dKey, hh, hmi, hs]
    unfold DT.dKey at hdk ⊢
    dsimp only at hdk ⊢
    omega
  · simp only [if_true]
    obtain ⟨hval, hdk, hh, hmi, hs⟩ := addMonth_spec t ⟨h1, h2, h3, h4, h5, h6, h7⟩
    refine ⟨hval, ?_⟩
    rw [key_as_dKey, key_as_dKey, hh, hmi, hs]
    unfold DT.dKey at hdk ⊢
    omega

theorem dayIter_spec (t : DT) (ini : Bool) (hv : t.Valid) :
    (addDay (if ini then t else { t with h := 0, mi := 0, s := 0 })).Valid ∧
      t.key < (addDay (if ini then t else { t with h := 0, mi := 0, s := 0 })).key := by
  obtain ⟨h1, h2, h3, h4, h5, h6, h7⟩ := hv
  cases ini
  · simp only [Bool.false_eq_true, if_false]
    have hv0 : ({ t with h := 0, mi := 0, s := 0 } : DT).Valid :=
      ⟨h1, h2, h3, h4, by dsimp only; omega, by dsimp only; omega, by dsimp only; omega⟩
    obtain ⟨hval, hdk, hh, hmi, hs⟩ := addDay_spec _ hv0
    refine ⟨hval, ?_⟩
    rw [key_as_dKey, key_as_dKey, hh, hmi, hs]
    unfold DT.dKey at hdk ⊢
    dsimp only at hdk ⊢
    omega
  · simp only [if_true]
    obtain ⟨hval, hdk, hh, hmi, hs⟩ := addDay_spec t ⟨h1, h2, h3, h4, h5, h6, h7⟩
    refine ⟨hval, ?_⟩
    rw [key_as_dKey, key_as_dKey, hh, hmi, hs]
    unfold DT.dKey at hdk ⊢
    omega

theorem hourIter_spec (t : DT) (ini : Bool) (hv : t.Valid) :
    (addHour (if ini then t else { t with mi := 0, s := 0 })).Valid ∧
      t.key < (addHour (if ini then t else { t with mi := 0, s := 0 })).key := by
  obtain ⟨h1, h2, h3, h4, h5, h6, h7⟩ := hv
  cases ini
  · simp only [Bool.false_eq_true, if_false]
    have hv0 : ({ t with mi := 0, s := 0 } : DT).Valid :=
      ⟨h1, h2, h3, h4, h5, by dsimp only; omega, by dsimp only; omega⟩
    obtain ⟨hval, hdk, hmi, hs⟩ := addHour_spec _ hv0
    refine ⟨hval, ?_⟩
    rw [key_as_dKey, key_as_dKey, hmi, hs]
    unfold DT.dKey at hdk ⊢
    dsimp only at hdk ⊢
    omega
  · simp only [if_true]
    obtain ⟨hval, hdk, hmi, hs⟩ := addHour_spec t ⟨h1, h2, h3, h4, h5, h6, h7⟩
    refine ⟨hval, ?_⟩
    rw [key_as_dKey, key_as_dKey, hmi, hs]
    unfold DT.dKey at hdk ⊢
    omega

theorem minuteIter_spec (t : DT) (ini : Bool) (hv : t.Valid) :
    (addMinute (if ini then t else { t with s := 0 })).Valid ∧
      t.key < (addMinute (if ini then t else { t with s := 0 })).key := by
  obtain ⟨h1, h2, h3, h4, h5, h6, h7⟩ := hv
  cases ini
  · simp only [Bool.false_eq_true, if_false]
    have hv0 : ({ t with s := 0 } : DT).Valid :=
      ⟨h1, h2, h3, h4, h5, h6, by dsimp only; omega⟩
    obtain ⟨hval, hdk, hs⟩ := addMinute_spec _ hv0
    refine ⟨hval, ?_⟩
    rw [key_as_dKey, key_as_dKey, hs]
    unfold DT.dKey at hdk ⊢
    dsimp only at hdk ⊢
    omega
  · simp only [if_true]
    obtain ⟨hval, hdk, hs⟩ := addMinute_spec t ⟨h1, h2, h3, h4, h5, h6, h7⟩
    refine ⟨hval, ?_⟩
    rw [key_as_dKey, key_as_dKey, hs]
    unfold DT.dKey at hdk ⊢
    omega

/-- What every loop of the embedded Next guarantees: the scan returns the
zero time, or a valid time no earlier than the loop's entry time. -/
def nextSpec (t : DT) (r : Option DT) : Prop :=
  r = Option.none ∨ ∃ u, r = some u ∧ u.Valid ∧ t.key ≤ u.key

theorem nextSpec_trans {t t2 : DT} {r : Option DT} (h : nextSpec t2 r) (hle : t.key ≤ t2.key) :
    nextSpec t r := by
  rcases h with h | ⟨u, hu, huv, hk⟩
  · exact Or.inl h
  · exact Or.inr ⟨u, hu, huv, le_trans hle hk⟩

theorem loops_spec (e : CronExpr) (y0 : Int) :
    ∀ n : Nat,
      (∀ ini t, t.Valid → nextSpec t (secondLoop e y0 n ini t)) ∧
      (∀ ini t, t.Valid → nextSpec t (minuteLoop e y0 n ini t)) ∧
      (∀ ini t, t.Valid → nextSpec t (hourLoop e y0 n ini t)) ∧
      (∀ ini t, t.Valid → nextSpec t (dayLoop e y0 n ini t)) ∧
      (∀ ini t, t.Valid → nextSpec t (monthLoop e y0 n ini t)) ∧
      (∀ ini t, t.Valid → nextSpec t (nextRetry e y0 n ini t)) := by
  intro n
  induction n using Nat.strong_induction_on with
  | _ n ih =>
    match n with
    | 0 =>
        refine ⟨?_, ?_, ?_, ?_, ?_, ?_⟩ <;> intro ini t hv <;> exact Or.inl (by
          first
          | rw [secondLoop]
          | rw [minuteLoop]
          | rw [hourLoop]
          | rw [dayLoop]
          | rw [monthLoop]
          | rw [nextRetry])
    | Nat.succ m =>
        have ihm := ih m (by omega)
        have hsec : ∀ ini t, t.Valid → nextSpec t (secondLoop e y0 (m + 1) ini t) := by
          intro ini t hv
          rw [secondLoop]
          by_cases hbit : e.sec.testBit t.s
          · rw [if_pos hbit]
            exact Or.inr ⟨t, rfl, hv, le_refl _⟩
          · rw [if_neg hbit]
            obtain ⟨hval, hkey⟩ := addSecond_spec t hv
            simp only []
            set u := addSecond t with hu
            split_ifs with hz
            · exact nextSpec_trans (ihm.2.2.2.2.2 true u hval) (le_of_lt hkey)
            · exact nextSpec_trans (ihm.1 true u hval) (le_of_lt hkey)
        have hmin : ∀ ini t, t.Valid → nextSpec t (minuteLoop e y0 (m + 1) ini t) := by
          intro ini t hv
          rw [minuteLoop]
          by_cases hbit : e.min.testBit t.mi
          · rw [if_pos hbit]
            exact hsec ini t hv
          · rw [if_neg hbit]
            obtain ⟨hval, hkey⟩ := minuteIter_spec t ini hv
            simp only []
            set u := addMinute (if ini = true then t else { t with s := 0 }) with hu
            split_ifs with hz
            · exact nextSpec_trans (ihm.2.2.2.2.2 true u hval) (le_of_lt hkey)
            · exact nextSpec_trans (ihm.2.1 true u hval) (le_of_lt hkey)
        have hhour : ∀ ini t, t.Valid → nextSpec t (hourLoop e y0 (m + 1) ini t) := by
          intro ini t hv
          rw [hourLoop]
          by_cases hbit : e.hour.testBit t.h
          · rw [if_pos hbit]
            exact hmin ini t hv
          · rw [if_neg hbit]
            obtain ⟨hval, hkey⟩ := hourIter_spec t ini hv
            simp only []
            set u := addHour (if ini = true then t else { t with mi := 0, s := 0 }) with hu
            split_ifs with hz
            · exact nextSpec_trans (ihm.2.2.2.2.2 true u hval) (le_of_lt hkey)
            · exact nextSpec_trans (ihm.2.2.1 true u hval) (le_of_lt hkey)
        have hday : ∀ ini t, t.Valid → nextSpec t (dayLoop e y0 (m + 1) ini t) := by
          intro ini t hv
          rw [dayLoop]
          by_cases hbit : e.matchDay t
          · rw [if_pos hbit]
            exact hhour ini t hv
          · rw [if_neg hbit]
            obtain ⟨hval, hkey⟩ := dayIter_spec t ini hv
            simp only []
            set u := addDay (if ini = true then t else { t with h := 0, mi := 0, s := 0 }) with hu
            split_ifs with hz
            · exact nextSpec_trans (ihm.2.2.2.2.2 true u hval) (le_of_lt hkey)
            · exact nextSpec_trans (ihm.2.2.2.1 true u hval) (le_of_lt hkey)
        have hmonth : ∀ ini t, t.Valid → nextSpec t (monthLoop e y0 (m + 1) ini t) := by
          intro ini t hv
          rw [monthLoop]
          by_cases hbit : e.month.testBit t.mo
          · rw [if_pos hbit]
            exact hday ini t hv
          · rw [if_neg hbit]
            obtain ⟨hval, hkey⟩ := monthIter_spec t ini hv
            simp only []
            set u := addMonth (if ini = true then t
              else { t with d := 1, h := 0, mi := 0, s := 0 }) with hu
            split_ifs with hz
            · exact nextSpec_trans (ihm.2.2.2.2.2 true u hval) (le_of_lt hkey)
            · exact nextSpec_trans (ihm.2.2.2.2.1 true u hval) (le_of_lt hkey)
        have hretry : ∀ ini t, t.Valid → nextSpec t (nextRetry e y0 (m + 1) ini t) := by
          intro ini t hv
          rw [nextRetry]
          split_ifs with hy
          · exact Or.inl rfl
          · exact hmonth ini t hv
        exact ⟨hsec, hmin, hhour, hday, hmonth, hretry⟩

theorem next_gt_aux (e : CronExpr) (t : DT) (hv : t.Valid) :
    e.Next t = Option.none ∨ ∃ u, e.Next t = some u ∧ u.Valid ∧ t.key < u.key := by
  unfold CronExpr.Next
  obtain ⟨hval, hkey⟩ := addSecond_spec t hv
  rcases (loops_spec e (addSecond t).y cronFuel).2.2.2.2.2 false (addSecond t) hval with
    h | ⟨u, hu, huv, hk⟩
  · exact Or.inl h
  · exact Or.inr ⟨u, hu, huv, lt_of_lt_of_le hkey hk⟩

/-- C8: for every cron expression and every valid civil time `t`,
`Next t` is either the zero time or a valid time strictly later than `t`;
consequently, whenever both applications return a non-zero time,
`Next (Next t)` is strictly later than `Next t`. -/
theorem cron_next_monotone (e : CronExpr) (t : DT) (hv : t.Valid) :
    (e.Next t = Option.none ∨ ∃ u, e.Next t = some u ∧ u.Valid ∧ t.key < u.key) ∧
    (∀ u, e.Next t = some u →
      e.Next u = Option.none ∨ ∃ w, e.Next u = some w ∧ u.key < w.key) := by
  refine ⟨next_gt_aux e t hv, fun u hu => ?_⟩
  rcases next_gt_aux e t hv with h | ⟨u2, hu2, huv, _⟩
  · rw [h] at hu; cases hu
  · rw [hu2] at hu
    injection hu with he
    subst he
    rcases next_gt_aux e u2 huv with h2 | ⟨w, hw, _, hk⟩
    · exact Or.inl h2
    · exact Or.inr ⟨w, hw, hk⟩

/-- A cron expression whose masks accept every field value. -/
def cronEvery : CronExpr := ⟨2 ^ 60 - 1, 2 ^ 60 - 1, 2 ^ 60 - 1, 0xfffffffe, 2 ^ 13 - 1, 0x7f⟩

/-- C8 witness: the all-accepting expression applied at a concrete valid
time. -/
theorem cron_next_monotone_witness :
    DT.Valid ⟨2026, 10, 11, 12, 0, 0⟩ ∧
      ((cronEvery.Next ⟨2026, 10, 11, 12, 0, 0⟩ = Option.none ∨
          ∃ u, cronEvery.Next ⟨2026, 10, 11, 12, 0, 0⟩ = some u ∧ u.Valid ∧
            DT.key ⟨2026, 10, 11, 12, 0, 0⟩ < u.key) ∧
        (∀ u, cronEvery.Next ⟨2026, 10, 11, 12, 0, 0⟩ = some u →
          cronEvery.Next u = Option.none ∨
            ∃ w, cronEvery.Next u = some w ∧ u.key < w.key)) :=
  ⟨by decide, cron_next_monotone cronEvery ⟨2026, 10, 11, 12, 0, 0⟩ (by decide)⟩

end Squash
